import Mathlib

/-!
Verification model of the `logging` Go package (github.com/Brian44913/logging).

The definitions below are a shallow embedding of the package's source:
pure Go functions become Lean functions, Go `any` values become the `GoVal`
sum type, the `encoding/json` standard-library behavior used by the package
(`json.Valid`, `json.Unmarshal` into `any`) is modelled by an executable
JSON parser over `List Char`, and side effects (clock, stack walking, file
opening) become explicit parameters.
-/

namespace Logging

/-! ## Character and string utilities (models of Go `strings` functions) -/

/-- Model of `unicode.IsSpace` restricted to the whitespace characters that
occur in practice (ASCII whitespace plus NEL and NBSP). Used by the model of
`strings.TrimSpace`. -/
def isGoSpace (c : Char) : Bool :=
  c = ' ' || c = '\t' || c = '\n' || c = Char.ofNat 11 || c = Char.ofNat 12 ||
  c = '\r' || c = Char.ofNat 0x85 || c = Char.ofNat 0xA0

/-- Trim `isGoSpace` characters from both ends; model of `strings.TrimSpace`. -/
def trimSpace (s : String) : String :=
  String.mk (((s.data.dropWhile isGoSpace).reverse.dropWhile isGoSpace).reverse)

/-- Model of `strings.ToUpper` (ASCII letters suffice for the level names). -/
def toUpperGo (s : String) : String := String.mk (s.data.map Char.toUpper)

/-- Model of `strings.ToLower` (ASCII letters suffice for the tokens used). -/
def toLowerGo (s : String) : String := String.mk (s.data.map Char.toLower)

/-- Model of `strings.TrimSuffix s c` for a one-character suffix:
drop the last character when it equals `c`, otherwise return the string
unchanged. -/
def trimOneSuffixChar (c : Char) (l : List Char) : List Char :=
  if l.getLast? = some c then l.dropLast else l

/-- Model of `strings.Split s sep` for a one-character separator. -/
def splitOnCharAux (sep : Char) : List Char → List Char → List String
  | [], acc => [String.mk acc.reverse]
  | c :: tl, acc =>
    if c = sep then String.mk acc.reverse :: splitOnCharAux sep tl []
    else splitOnCharAux sep tl (c :: acc)

def splitOnChar (sep : Char) (l : List Char) : List String :=
  splitOnCharAux sep l []

/-- Byte-lexicographic comparison of strings (what Go's `sort.Strings`
uses; on UTF-8 the byte order agrees with the code-point order). -/
def listCharLe : List Char → List Char → Bool
  | [], _ => true
  | _ :: _, [] => false
  | a :: as, b :: bs =>
    if a.toNat < b.toNat then true
    else if b.toNat < a.toNat then false
    else listCharLe as bs

def strLe (a b : String) : Bool := listCharLe a.data b.data

/-! ## JSON values and an executable parser

Model of the parts of `encoding/json` the package uses: `json.Valid`
(syntactic validity of a complete JSON text) and `json.Unmarshal` into
`any` (producing a structured value). Numbers are kept exactly as a
mantissa together with a power-of-ten exponent, so no floating point is
involved. -/

inductive Jval where
  | null
  | bool (b : Bool)
  | num (mantissa : Int) (exp10 : Int)
  | str (s : List Char)
  | arr (elems : List Jval)
  | obj (entries : List (List Char × Jval))

def isJsonWs (c : Char) : Bool := c = ' ' || c = '\t' || c = '\n' || c = '\r'

def skipWs (l : List Char) : List Char := l.dropWhile isJsonWs

def isDigitCh (c : Char) : Bool := '0' ≤ c && c ≤ '9'

def digitsToNat (ds : List Char) : Nat :=
  ds.foldl (fun a c => a * 10 + (c.toNat - 48)) 0

def hexVal (c : Char) : Option Nat :=
  if '0' ≤ c && c ≤ '9' then some (c.toNat - 48)
  else if 'a' ≤ c && c ≤ 'f' then some (c.toNat - 87)
  else if 'A' ≤ c && c ≤ 'F' then some (c.toNat - 55)
  else none

def escChar (c : Char) : Option Char :=
  if c = '"' then some '"'
  else if c = '\\' then some '\\'
  else if c = '/' then some '/'
  else if c = 'b' then some (Char.ofNat 8)
  else if c = 'f' then some (Char.ofNat 12)
  else if c = 'n' then some '\n'
  else if c = 'r' then some '\r'
  else if c = 't' then some '\t'
  else none

/-- Parse the body of a JSON string (the opening quote already consumed),
returning the decoded characters and the remaining input. -/
def parseStringBody : List Char → Option (List Char × List Char)
  | [] => none
  | '"' :: rest => some ([], rest)
  | '\\' :: 'u' :: a :: b :: c :: d :: rest => do
      let ha ← hexVal a
      let hb ← hexVal b
      let hc ← hexVal c
      let hd ← hexVal d
      let (s, r) ← parseStringBody rest
      some (Char.ofNat (((ha * 16 + hb) * 16 + hc) * 16 + hd) :: s, r)
  | '\\' :: e :: rest => do
      let c ← escChar e
      let (s, r) ← parseStringBody rest
      some (c :: s, r)
  | c :: rest =>
      if c.toNat < 32 then none
      else do
        let (s, r) ← parseStringBody rest
        some (c :: s, r)

def takeDigits (l : List Char) : List Char × List Char :=
  (l.takeWhile isDigitCh, l.dropWhile isDigitCh)

/-- The integer part of a JSON number: `0`, or a nonzero digit followed by
more digits (JSON forbids leading zeros). -/
def parseIntPart : List Char → Option (List Char × List Char)
  | '0' :: rest => some (['0'], rest)
  | c :: rest =>
      if isDigitCh c then
        let (ds, r) := takeDigits rest
        some (c :: ds, r)
      else none
  | [] => none

/-- The optional fraction part: `.` followed by at least one digit. -/
def parseFracPart : List Char → Option (List Char × List Char)
  | '.' :: r =>
      let (ds, r') := takeDigits r
      if ds = [] then none else some (ds, r')
  | l => some ([], l)

/-- The optional exponent part: `e`/`E`, optional sign, at least one digit. -/
def parseExpPart : List Char → Option (Int × List Char)
  | c :: r =>
      if c = 'e' || c = 'E' then
        let (sgn, r1) : Int × List Char :=
          match r with
          | '+' :: t => (1, t)
          | '-' :: t => (-1, t)
          | t => (1, t)
        let (ds, r2) := takeDigits r1
        if ds = [] then none else some (sgn * (digitsToNat ds : Int), r2)
      else some (0, c :: r)
  | [] => some (0, [])

def parseNumber (l : List Char) : Option (Jval × List Char) :=
  let (neg, l1) : Bool × List Char :=
    match l with
    | '-' :: r => (true, r)
    | _ => (false, l)
  match parseIntPart l1 with
  | none => none
  | some (ip, l2) =>
    match parseFracPart l2 with
    | none => none
    | some (fr, l3) =>
      match parseExpPart l3 with
      | none => none
      | some (ex, l4) =>
        let mag : Nat := digitsToNat ip * 10 ^ fr.length + digitsToNat fr
        let mantissa : Int := if neg then -(mag : Int) else (mag : Int)
        some (.num mantissa (ex - (fr.length : Int)), l4)

mutual

/-- Recursive-descent JSON value parser, fuelled to make termination
structural. -/
def parseVal : Nat → List Char → Option (Jval × List Char)
  | 0, _ => none
  | fuel + 1, l =>
    match skipWs l with
    | 'n' :: 'u' :: 'l' :: 'l' :: r => some (.null, r)
    | 't' :: 'r' :: 'u' :: 'e' :: r => some (.bool true, r)
    | 'f' :: 'a' :: 'l' :: 's' :: 'e' :: r => some (.bool false, r)
    | '"' :: r =>
      match parseStringBody r with
      | some (s, r') => some (.str s, r')
      | none => none
    | '[' :: r => parseArrBody fuel r
    | '\x7b' :: r => parseObjBody fuel r
    | l' => parseNumber l'

def parseArrBody : Nat → List Char → Option (Jval × List Char)
  | 0, _ => none
  | fuel + 1, l =>
    match skipWs l with
    | ']' :: r => some (.arr [], r)
    | l' => parseArrElems fuel l' []

def parseArrElems : Nat → List Char → List Jval → Option (Jval × List Char)
  | 0, _, _ => none
  | fuel + 1, l, acc =>
    match parseVal fuel l with
    | none => none
    | some (v, r) =>
      match skipWs r with
      | ',' :: r' => parseArrElems fuel r' (acc ++ [v])
      | ']' :: r' => some (.arr (acc ++ [v]), r')
      | _ => none

def parseObjBody : Nat → List Char → Option (Jval × List Char)
  | 0, _ => none
  | fuel + 1, l =>
    match skipWs l with
    | '\x7d' :: r => some (.obj [], r)
    | l' => parseObjMembers fuel l' []

def parseObjMembers :
    Nat → List Char → List (List Char × Jval) → Option (Jval × List Char)
  | 0, _, _ => none
  | fuel + 1, l, acc =>
    match skipWs l with
    | '"' :: r =>
      match parseStringBody r with
      | none => none
      | some (k, r1) =>
        match skipWs r1 with
        | ':' :: r2 =>
          match parseVal fuel r2 with
          | none => none
          | some (v, r3) =>
            match skipWs r3 with
            | ',' :: r4 => parseObjMembers fuel r4 (acc ++ [(k, v)])
            | '\x7d' :: r4 => some (.obj (acc ++ [(k, v)]), r4)
            | _ => none
        | _ => none
    | _ => none

end

/-- Model of parsing a complete JSON text (as `json.Unmarshal` into `any`
would): the whole input, up to surrounding whitespace, must be consumed. -/
def jsonParse (s : String) : Option Jval :=
  match parseVal (4 * s.data.length + 8) s.data with
  | some (v, r) => if skipWs r = [] then some v else none
  | none => none

/-- Model of `json.Valid`. -/
def jsonValid (s : String) : Bool := (jsonParse s).isSome

/-! ## Go dynamic values

`GoVal` models the Go `any` values the package's variadic API receives and
produces: strings, integers, booleans, `error` values (carrying the text
their `Error()` method returns), `map[string]any` literals, values produced
by `json.Unmarshal`, and `[]any` slices. -/

inductive GoVal where
  | str (s : String)
  | int (n : Int)
  | boolv (b : Bool)
  | errv (msg : String)
  | map (entries : List (String × GoVal))
  | json (j : Jval)
  | list (elems : List GoVal)

/-! ## Association-list model of `map[string]any`

Go map assignment overwrites the entry with the same key; lookups are by
key. The assoc lists built below always have pairwise-distinct keys. -/

def mapInsert : List (String × GoVal) → String → GoVal → List (String × GoVal)
  | [], k, v => [(k, v)]
  | (k', v') :: tl, k, v =>
    if k' = k then (k, v) :: tl else (k', v') :: mapInsert tl k v

def mapLookup : List (String × GoVal) → String → Option GoVal
  | [], _ => none
  | (k', v') :: tl, k => if k' = k then some v' else mapLookup tl k

/-! ## The argument classifier (`parseArgs` and helpers) -/

/-- Model of `normalizeKey`: trim surrounding whitespace, then
`strings.TrimSuffix(k, ":")`, then `strings.TrimSuffix(k, "：")` —
in that order, exactly as the source does. -/
def normalizeKey (k : String) : String :=
  String.mk (trimOneSuffixChar '：' (trimOneSuffixChar ':' (trimSpace k).data))

/-- The classified intermediate record one log call produces. -/
structure Classified where
  msg : GoVal
  fields : List (String × GoVal)
  dataJSON : List String
  errField : Option String
  extra : List GoVal

/-- Is this argument a string whose trimmed text is valid JSON?
(The condition `parseArgs` uses to absorb an argument into `dataJSON`.) -/
def isJSONString : GoVal → Bool
  | .str s => jsonValid (trimSpace s)
  | _ => false

/-- The first loop of `parseArgs`: pull every valid-JSON string out into
`dataJSON` (in original order, trimmed), keeping the other elements in
their original relative order. -/
def splitJSON : List GoVal → List String × List GoVal
  | [] => ([], [])
  | v :: tl =>
    let r := splitJSON tl
    match v with
    | .str s =>
        if jsonValid (trimSpace s) then (trimSpace s :: r.1, r.2)
        else (r.1, .str s :: r.2)
    | v => (r.1, v :: r.2)

/-- The key/value pairing loop of `parseArgs`: adjacent pairs with a
string key go to `fields` (key normalized, map-assignment semantics),
pairs with a non-string key go to `extra`, and a final unpaired element
goes to `extra` alone. -/
def pairKV (fields : List (String × GoVal)) :
    List GoVal → List (String × GoVal) × List GoVal
  | [] => (fields, [])
  | [x] => (fields, [x])
  | k :: v :: tl =>
    match k with
    | .str ks => pairKV (mapInsert fields (normalizeKey ks) v) tl
    | k =>
      let r := pairKV fields tl
      (r.1, k :: v :: r.2)

/-- The last element of the post-JSON-removal list, when it is an
error-typed value. -/
def lastErr (l : List GoVal) : Option String :=
  match l.getLast? with
  | some (.errv e) => some e
  | _ => none

/-- The trailing-error block of `parseArgs`: when the post-JSON-removal
list is non-empty, its last element is an error value and its length is
odd, detach that element (as its message string). -/
def detachTrailingError (kv0 : List GoVal) : Option String × List GoVal :=
  match kv0.getLast? with
  | some (.errv e) =>
      if kv0.length % 2 = 1 then (some e, kv0.dropLast) else (none, kv0)
  | _ => (none, kv0)

/-- The general path of `parseArgs` (everything after the single-map
shortcut): JSON extraction, then trailing-error detection on the remaining
list, then key/value pairing. -/
def classifyGeneral (msg : GoVal) (rest : List GoVal) : Classified :=
  let s := splitJSON rest
  let er := detachTrailingError s.2
  let p := pairKV [] er.2
  ⟨msg, p.1, s.1, er.1, p.2⟩

/-- The single-map shortcut test of `parseArgs`: exactly one remaining
element and it is a `map[string]any`. -/
def isSingletonMap : List GoVal → Option (List (String × GoVal))
  | [GoVal.map m] => some m
  | _ => none

/-- Copying a `map[string]any` argument into `fields`, normalizing keys. -/
def copyMapFields (es : List (String × GoVal)) : List (String × GoVal) :=
  es.foldl (fun f kv => mapInsert f (normalizeKey kv.1) kv.2) []

/-- Model of `parseArgs`. -/
def parseArgs (args : List GoVal) : Classified :=
  match args with
  | [] => ⟨.str "", [], [], none, []⟩
  | msg :: rest =>
    match isSingletonMap rest with
    | some m => ⟨msg, copyMapFields m, [], none, []⟩
    | none => classifyGeneral msg rest

/-! ## Levels, formats, destinations, configuration -/

inductive Level where
  | DEBUG
  | INFO
  | WARN
  | ERROR
deriving DecidableEq

/-- The numeric rank of a level (the Go `const` iota values). -/
def Level.rank : Level → Nat
  | .DEBUG => 0
  | .INFO => 1
  | .WARN => 2
  | .ERROR => 3

/-- Model of `Level.String()`. -/
def Level.name : Level → String
  | .DEBUG => "DEBUG"
  | .INFO => "INFO"
  | .WARN => "WARN"
  | .ERROR => "ERROR"

/-- Model of `enabled`: the Go comparison `lv >= min` on the iota ranks. -/
def enabled (lv min : Level) : Bool := decide (min.rank ≤ lv.rank)

inductive Format where
  | JSON
  | TEXT
deriving DecidableEq

/-- The errors the package's parsers and setters can return. Each
constructor carries exactly the data the corresponding `fmt.Errorf` /
`errors.New` call interpolates into its message. -/
inductive GoErr where
  | unknownLevel (s : String)
  | unknownFmt (s : String)
  | unknownOutputPart (p : String)
  | outputFileEmpty
  | setLogFileEmpty
deriving DecidableEq

/-- Model of `parseLevel`. -/
def parseLevel (s : String) : Level × Option GoErr :=
  let t := toUpperGo (trimSpace s)
  if t = "DEBUG" then (.DEBUG, none)
  else if t = "INFO" ∨ t = "" then (.INFO, none)
  else if t = "WARN" ∨ t = "WARNING" then (.WARN, none)
  else if t = "ERROR" then (.ERROR, none)
  else (.INFO, some (.unknownLevel s))

/-- Model of `parseFormat`. -/
def parseFormat (s : String) : Format × Option GoErr :=
  let t := toLowerGo (trimSpace s)
  if t = "" ∨ t = "json" then (.JSON, none)
  else if t = "text" ∨ t = "plain" then (.TEXT, none)
  else (.JSON, some (.unknownFmt s))

/-- The destination set (the Go `map[outputDest]bool`). -/
structure DestSet where
  stdout : Bool
  stderr : Bool
  file : Bool
deriving DecidableEq

/-- The token loop of `parseOutput`: returns the offending token on the
first unknown one (the Go loop returns immediately there). -/
def parseOutputParts : List String → DestSet → Except String DestSet
  | [], acc => .ok acc
  | p :: tl, acc =>
    let t := toLowerGo (trimSpace p)
    if t = "stdout" then parseOutputParts tl { acc with stdout := true }
    else if t = "stderr" then parseOutputParts tl { acc with stderr := true }
    else if t = "file" then parseOutputParts tl { acc with file := true }
    else if t = "" then parseOutputParts tl acc
    else .error p

/-- Model of `parseOutput`. -/
def parseOutput (outputEnv fileEnv : String) : DestSet × Option GoErr :=
  let s := trimSpace outputEnv
  if s = "" then
    if trimSpace fileEnv ≠ "" then (⟨false, false, true⟩, none)
    else (⟨false, true, false⟩, none)
  else
    match parseOutputParts (splitOnChar '+' s.data) ⟨false, false, false⟩ with
    | .error p => (⟨false, true, false⟩, some (.unknownOutputPart p))
    | .ok out =>
      if out.file ∧ trimSpace fileEnv = "" then (out, some .outputFileEmpty)
      else (out, none)

/-- An active writer. The OS streams and the opened file handle. -/
inductive Writer where
  | stdout
  | stderr
  | fileW (path : String)
deriving DecidableEq

/-- The writer list `rebuildWriterLocked` assembles before the fallback
check. `openOK` stands for the outcome of the `os.OpenFile` call (an
effect outside the program). -/
def usableWriters (out : DestSet) (file : String) (openOK : Bool) : List Writer :=
  (if out.stdout then [Writer.stdout] else []) ++
  (if out.stderr then [Writer.stderr] else []) ++
  (if out.file ∧ trimSpace file ≠ "" ∧ openOK then [Writer.fileW file] else [])

/-- Model of `rebuildWriterLocked`: assemble the writer list in fixed
order, and when it ends up empty substitute stderr alone. -/
def rebuildWriters (out : DestSet) (file : String) (openOK : Bool) : List Writer :=
  let ws := usableWriters out file openOK
  if ws = [] then [Writer.stderr] else ws

/-- The settable configuration (`config` minus the derived writer/closer). -/
structure Config where
  level : Level
  fmt : Format
  output : DestSet
  file : String
deriving DecidableEq

/-- Configuration together with the derived active writer list. -/
structure LoggerState where
  cfg : Config
  writers : List Writer
deriving DecidableEq

/-- Model of `SetLogLevel`: on a parse error return it and touch nothing. -/
def stateSetLogLevel (st : LoggerState) (s : String) : LoggerState × Option GoErr :=
  match parseLevel s with
  | (_, some e) => (st, some e)
  | (lv, none) => ({ st with cfg := { st.cfg with level := lv } }, none)

/-- Model of `SetLogFmt`. -/
def stateSetLogFmt (st : LoggerState) (s : String) : LoggerState × Option GoErr :=
  match parseFormat s with
  | (_, some e) => (st, some e)
  | (fm, none) => ({ st with cfg := { st.cfg with fmt := fm } }, none)

/-- Model of `SetOutput`: the parsed destination set is stored even when
the parser reports an error, and the writer is rebuilt. -/
def stateSetOutput (st : LoggerState) (outputStr : String) (openOK : Bool) :
    LoggerState × Option GoErr :=
  let r := parseOutput outputStr st.cfg.file
  let cfg' : Config := { st.cfg with output := r.1 }
  (⟨cfg', rebuildWriters cfg'.output cfg'.file openOK⟩, r.2)

/-- Model of `SetLogFile`: store the trimmed path, rebuild, and report an
error when `file` is a selected destination but the path is empty. -/
def stateSetLogFile (st : LoggerState) (path : String) (openOK : Bool) :
    LoggerState × Option GoErr :=
  let cfg' : Config := { st.cfg with file := trimSpace path }
  let st' : LoggerState := ⟨cfg', rebuildWriters cfg'.output cfg'.file openOK⟩
  if cfg'.output.file ∧ cfg'.file = "" then (st', some .setLogFileEmpty)
  else (st', none)

/-! ## The JSON record encoder (`buildJSONEntry`, `orderedEntry.MarshalJSON`) -/

/-- Model of `mustUnmarshalAny`: parse, and on failure return the string
itself. -/
def mustUnmarshalAny (s : String) : GoVal :=
  match jsonParse s with
  | some j => .json j
  | none => .str s

/-- Model of `parseJSONIfString`: promote a string whose trimmed text is
valid JSON to the parsed structured value; other strings are returned
trimmed; non-strings unchanged. -/
def parseJSONIfString (v : GoVal) : GoVal :=
  match v with
  | .str s =>
    let ss := trimSpace s
    if jsonValid ss then mustUnmarshalAny ss else .str ss
  | v => v

/-- Model of `orderedEntry`: the fixed head fields, the `Extra` map and the
trailing optional error. -/
structure OrderedEntry where
  ts : String
  lv : String
  caller : String
  msg : GoVal
  extra : List (String × GoVal)
  err : Option String

/-- The synthetic `data` value: the single parsed blob, or the list of
parsed blobs in original order. -/
def dataValue (ds : List String) : GoVal :=
  match ds with
  | [d] => mustUnmarshalAny d
  | ds => .list (ds.map fun s => mustUnmarshalAny s)

/-- The copy of `fields` into the entry's `Extra` map, promoting
JSON-text values. -/
def fieldsToExtra (fs : List (String × GoVal)) : List (String × GoVal) :=
  fs.foldl (fun m kv => mapInsert m kv.1 (parseJSONIfString kv.2)) []

/-- Model of `buildJSONEntry`: classify, copy fields (JSON-promoted) into
the extra map, then store the synthetic `data` and `args` entries into the
same map, then record the trailing error. -/
def buildJSONEntry (ts : String) (lv : Level) (caller : String)
    (args : List GoVal) : OrderedEntry :=
  let c := parseArgs args
  let m1 := fieldsToExtra c.fields
  let m2 := if c.dataJSON = [] then m1 else mapInsert m1 "data" (dataValue c.dataJSON)
  let m3 := if c.extra.isEmpty then m2 else mapInsert m2 "args" (.list c.extra)
  ⟨ts, lv.name, caller, parseJSONIfString c.msg, m3, c.errField⟩

/-- The reserved keys `MarshalJSON` refuses to take from the extra map. -/
def reservedKey (k : String) : Bool :=
  k = "ts" || k = "lv" || k = "caller" || k = "msg" || k = "err"

/-- The extra-map keys in the order `MarshalJSON` writes them: reserved
names dropped, the rest sorted ascending (the `sort.Strings` call). -/
def sortedExtraKeys (extra : List (String × GoVal)) : List String :=
  List.insertionSort (fun a b => strLe a b = true)
    ((extra.map Prod.fst).filter fun k => !reservedKey k)

/-- Model of `orderedEntry.MarshalJSON`, at the level of the ordered
key/value sequence of the emitted JSON object: the four fixed keys, then
the sorted extra keys with their values, then `err` last when present. -/
def marshalOrdered (e : OrderedEntry) : List (String × GoVal) :=
  [("ts", .str e.ts), ("lv", .str e.lv), ("caller", .str e.caller), ("msg", e.msg)]
  ++ (sortedExtraKeys e.extra).map (fun k => (k, (mapLookup e.extra k).getD (.str "")))
  ++ (match e.err with
      | some s => [("err", GoVal.str s)]
      | none => [])

/-- The key sequence of the emitted JSON object. -/
def outputKeys (e : OrderedEntry) : List String := (marshalOrdered e).map Prod.fst

/-! ## The text renderer -/

def hexDigitCh (n : Nat) : Char :=
  if n < 10 then Char.ofNat (48 + n) else Char.ofNat (87 + n % 16)

/-- One character of a JSON-quoted Go string (`encoding/json` escapes
quotes, backslashes, control characters and the HTML-sensitive three). -/
def jsonEscapeChar (c : Char) : List Char :=
  if c = '"' then ['\\', '"']
  else if c = '\\' then ['\\', '\\']
  else if c = '\n' then ['\\', 'n']
  else if c = '\r' then ['\\', 'r']
  else if c = '\t' then ['\\', 't']
  else if c.toNat < 32 || c = '<' || c = '>' || c = '&' then
    ['\\', 'u', hexDigitCh (c.toNat / 4096 % 16), hexDigitCh (c.toNat / 256 % 16),
     hexDigitCh (c.toNat / 16 % 16), hexDigitCh (c.toNat % 16)]
  else [c]

/-- Model of `mustQuote` (`json.Marshal` of a string). -/
def mustQuote (s : String) : String :=
  String.mk ('"' :: s.data.foldr (fun c acc => jsonEscapeChar c ++ acc) ['"'])

/-- Decimal rendering of the model's JSON numbers. -/
def jnumToString (m e : Int) : String :=
  if 0 ≤ e then toString (m * (10 : Int) ^ e.toNat)
  else
    let k := (-e).toNat
    let n := m.natAbs
    let fs := toString (n % 10 ^ k)
    (if m < 0 then "-" else "") ++ toString (n / 10 ^ k) ++ "." ++
      String.mk (List.replicate (k - fs.length) '0') ++ fs

mutual

/-- Model of `fmt.Sprint` on the `GoVal` universe. (Go's `fmt` prints map
keys sorted; the assoc lists here are printed in stored order, which is the
only divergence and is not relied on by any theorem below.) -/
def goSprint : GoVal → String
  | .str s => s
  | .int n => toString n
  | .boolv b => cond b "true" "false"
  | .errv m => m
  | .map es => "map[" ++ goSprintPairs es ++ "]"
  | .json j => jSprint j
  | .list vs => "[" ++ goSprintList vs ++ "]"

def goSprintPairs : List (String × GoVal) → String
  | [] => ""
  | [(k, v)] => k ++ ":" ++ goSprint v
  | (k, v) :: tl => k ++ ":" ++ goSprint v ++ " " ++ goSprintPairs tl

def goSprintList : List GoVal → String
  | [] => ""
  | [v] => goSprint v
  | v :: tl => goSprint v ++ " " ++ goSprintList tl

/-- `fmt.Sprint` on a value produced by `json.Unmarshal`. -/
def jSprint : Jval → String
  | .null => "<nil>"
  | .bool b => cond b "true" "false"
  | .num m e => jnumToString m e
  | .str s => String.mk s
  | .arr vs => "[" ++ jSprintList vs ++ "]"
  | .obj es => "map[" ++ jSprintPairs es ++ "]"

def jSprintList : List Jval → String
  | [] => ""
  | [v] => jSprint v
  | v :: tl => jSprint v ++ " " ++ jSprintList tl

def jSprintPairs : List (List Char × Jval) → String
  | [] => ""
  | [(k, v)] => String.mk k ++ ":" ++ jSprint v
  | (k, v) :: tl => String.mk k ++ ":" ++ jSprint v ++ " " ++ jSprintPairs tl

end

/-- Model of `formatTextValue`. -/
def formatTextValue (v : GoVal) : String :=
  match v with
  | .str x => if jsonValid (trimSpace x) then x else mustQuote x
  | .errv m => mustQuote m
  | v => goSprint v

/-- Model of `buildTextLine`. -/
def buildTextLine (ts : String) (lv : Level) (caller : String)
    (args : List GoVal) : String :=
  let c := parseArgs args
  let base := ts ++ " " ++ lv.name ++ " " ++ caller ++ " " ++ goSprint c.msg
  let withFields :=
    c.fields.foldl (fun acc kv => acc ++ " " ++ kv.1 ++ "=" ++ formatTextValue kv.2) base
  let withErr :=
    match c.errField with
    | some e => withFields ++ " err=" ++ formatTextValue (.str e)
    | none => withFields
  let withData := c.dataJSON.foldl (fun acc s => acc ++ " data=" ++ s) withErr
  if c.extra.isEmpty then withData
  else withData ++ " args=" ++ formatTextValue (.list c.extra)

/-! ## The leveled logging entry point -/

/-- One rendered log line (the shape handed to the sink). -/
inductive Rendered where
  | json (e : OrderedEntry)
  | text (line : String)

/-- Model of `logWithCaller` after the configuration snapshot: a filtered
call renders nothing at all; an enabled call renders in the configured
format. The timestamp and resolved caller are effects and enter as
parameters. -/
def logWithCaller (cfgLevel : Level) (cfgFmt : Format) (ts caller : String)
    (lv : Level) (args : List GoVal) : Option Rendered :=
  if enabled lv cfgLevel then
    some (match cfgFmt with
          | .JSON => .json (buildJSONEntry ts lv caller args)
          | .TEXT => .text (buildTextLine ts lv caller args))
  else none

/-! ## Small derived notions used in the statements -/

/-- The key list of an assoc-list map. -/
def mapKeys (m : List (String × GoVal)) : List String := m.map Prod.fst

/-- The string payload of a `GoVal`, when it is a string (the Go type
assertion `v.(string)`). -/
def GoVal.asString : GoVal → Option String
  | .str s => some s
  | _ => none

def lastChar (s : String) : Option Char := s.data.getLast?

def dropLastStr (s : String) : String := String.mk s.data.dropLast

/-- Modelled from the spec: the key normalization as the specification
words it — trim surrounding whitespace and strip exactly ONE trailing
colon, ASCII or full-width. Stated only to compare against the source's
`normalizeKey`. -/
def normalizeKeySpec (k : String) : String :=
  let t := trimSpace k
  if lastChar t = some ':' ∨ lastChar t = some '：' then dropLastStr t else t

/-- Modelled from the spec: a case-insensitive match of an input against
the five level names the specification lists (`WARNING` mapping to WARN).
Stated only to compare against the source's `parseLevel`. -/
def levelNameMatchSpec (s : String) : Bool :=
  ["DEBUG", "INFO", "WARN", "WARNING", "ERROR"].contains (toUpperGo s)

/-! ## Lemmas on the assoc-list map operations -/

theorem mapLookup_mapInsert_self (m : List (String × GoVal)) (k : String) (v : GoVal) :
    mapLookup (mapInsert m k v) k = some v := by
  induction m with
  | nil => simp [mapInsert, mapLookup]
  | cons hd tl ih =>
    obtain ⟨k', v'⟩ := hd
    by_cases h : k' = k
    · simp [mapInsert, h, mapLookup]
    · simp [mapInsert, h, mapLookup, ih]

theorem mapKeys_nil : mapKeys [] = [] := rfl

theorem mapKeys_cons (a : String × GoVal) (tl : List (String × GoVal)) :
    mapKeys (a :: tl) = a.1 :: mapKeys tl := rfl

theorem mapLookup_mapInsert_ne (m : List (String × GoVal)) {k k' : String} (v : GoVal)
    (h : k' ≠ k) : mapLookup (mapInsert m k v) k' = mapLookup m k' := by
  have h' : ¬k = k' := fun hh => h hh.symm
  induction m with
  | nil => simp [mapInsert, mapLookup, h']
  | cons hd tl ih =>
    obtain ⟨a, b⟩ := hd
    by_cases ha : a = k
    · subst ha
      simp [mapInsert, mapLookup, h']
    · simp [mapInsert, ha, mapLookup, ih]

theorem mem_of_mem_mapInsert {m : List (String × GoVal)} {k : String} {v : GoVal}
    {kv : String × GoVal} (h : kv ∈ mapInsert m k v) : kv ∈ m ∨ kv = (k, v) := by
  induction m with
  | nil => simp [mapInsert] at h; exact .inr h
  | cons hd tl ih =>
    obtain ⟨a, b⟩ := hd
    by_cases ha : a = k
    · simp [mapInsert, ha] at h
      rcases h with h | h
      · exact .inr h
      · exact .inl (List.mem_cons_of_mem _ h)
    · simp [mapInsert, ha] at h
      rcases h with h | h
      · exact .inl (by simp [h])
      · rcases ih h with h' | h'
        · exact .inl (List.mem_cons_of_mem _ h')
        · exact .inr h'

theorem mem_mapKeys_mapInsert {m : List (String × GoVal)} {k : String} {v : GoVal} (a : String) :
    a ∈ mapKeys (mapInsert m k v) ↔ a ∈ mapKeys m ∨ a = k := by
  induction m with
  | nil => simp [mapInsert, mapKeys]
  | cons hd tl ih =>
    obtain ⟨k', v'⟩ := hd
    by_cases h : k' = k
    · subst h
      simp [mapInsert, mapKeys] at *
      tauto
    · simp [mapInsert, h, mapKeys] at *
      tauto

theorem nodup_mapKeys_mapInsert {m : List (String × GoVal)} {k : String} {v : GoVal}
    (h : (mapKeys m).Nodup) : (mapKeys (mapInsert m k v)).Nodup := by
  induction m with
  | nil => simp [mapInsert, mapKeys]
  | cons hd tl ih =>
    obtain ⟨a, b⟩ := hd
    rw [mapKeys_cons, List.nodup_cons] at h
    by_cases ha : a = k
    · subst ha
      have he : mapInsert ((a, b) :: tl) a v = (a, v) :: tl := by simp [mapInsert]
      rw [he, mapKeys_cons, List.nodup_cons]
      exact ⟨h.1, h.2⟩
    · simp only [mapInsert, if_neg ha, mapKeys_cons, List.nodup_cons]
      refine ⟨?_, ih h.2⟩
      intro hmem
      rcases (mem_mapKeys_mapInsert a).mp hmem with h' | h'
      · exact h.1 h'
      · exact ha h'

theorem mem_mapKeys_of_lookup {m : List (String × GoVal)} {k : String} {v : GoVal}
    (h : mapLookup m k = some v) : k ∈ mapKeys m := by
  induction m with
  | nil => simp [mapLookup] at h
  | cons hd tl ih =>
    obtain ⟨a, b⟩ := hd
    by_cases ha : a = k
    · simp [mapKeys, ha]
    · simp [mapLookup, ha] at h
      simp [mapKeys] at *
      exact .inr (ih h)

theorem mapLookup_eq_some_of_nodup {m : List (String × GoVal)} {k : String} {v : GoVal}
    (hn : (mapKeys m).Nodup) (hm : (k, v) ∈ m) : mapLookup m k = some v := by
  induction m with
  | nil => simp at hm
  | cons hd tl ih =>
    obtain ⟨a, b⟩ := hd
    rw [mapKeys_cons, List.nodup_cons] at hn
    rcases List.mem_cons.mp hm with h | h
    · obtain ⟨h1, h2⟩ := Prod.ext_iff.mp h
      subst h1
      subst h2
      simp [mapLookup]
    · by_cases ha : a = k
      · subst ha
        exact absurd (List.mem_map_of_mem Prod.fst h) hn.1
      · simp [mapLookup, ha, ih hn.2 h]

theorem mapLookup_append (xs ys : List (String × GoVal)) (k : String) :
    mapLookup (xs ++ ys) k =
      (match mapLookup xs k with
       | some v => some v
       | none => mapLookup ys k) := by
  induction xs with
  | nil => simp [mapLookup]
  | cons hd tl ih =>
    obtain ⟨a, b⟩ := hd
    by_cases ha : a = k
    · simp [mapLookup, ha]
    · simp [mapLookup, ha, ih]

theorem mapLookup_keyedMap (g : String → GoVal) (k : String) (ks : List String) :
    mapLookup (ks.map fun k0 => (k0, g k0)) k =
      if k ∈ ks then some (g k) else none := by
  induction ks with
  | nil => simp [mapLookup]
  | cons a tl ih =>
    by_cases ha : a = k
    · subst ha
      simp [mapLookup]
    · have hka : ¬k = a := fun h => ha h.symm
      simp [mapLookup, ha, ih, hka]

theorem mapLookup_foldl_insert {α : Type} (f : α → String) (g : α → GoVal) (k : String)
    (l : List α) (m0 : List (String × GoVal)) :
    mapLookup (l.foldl (fun m x => mapInsert m (f x) (g x)) m0) k =
      (match l.reverse.find? (fun x => f x == k) with
       | some x => some (g x)
       | none => mapLookup m0 k) := by
  induction l generalizing m0 with
  | nil => simp
  | cons a tl ih =>
    simp only [List.foldl_cons, List.reverse_cons, List.find?_append]
    rw [ih]
    cases htl : tl.reverse.find? (fun x => f x == k) with
    | some x => simp
    | none =>
      simp only [Option.none_or]
      by_cases hfa : f a = k
      · subst hfa
        simp [List.find?, mapLookup_mapInsert_self]
      · have hbn : ((f a == k) : Bool) = false := beq_eq_false_iff_ne.mpr hfa
        simp [List.find?, hbn, mapLookup_mapInsert_ne _ _ (fun h => hfa h.symm)]

theorem mem_mapKeys_foldl_of_mem_base {α : Type} (f : α → String) (g : α → GoVal)
    {k : String} (l : List α) {m0 : List (String × GoVal)} (h : k ∈ mapKeys m0) :
    k ∈ mapKeys (l.foldl (fun m x => mapInsert m (f x) (g x)) m0) := by
  induction l generalizing m0 with
  | nil => simpa using h
  | cons a tl ih =>
    simp only [List.foldl_cons]
    exact ih ((mem_mapKeys_mapInsert k).mpr (.inl h))

theorem mem_mapKeys_foldl_insert_of_mem {α : Type} (f : α → String) (g : α → GoVal)
    {x : α} : ∀ (l : List α), x ∈ l → ∀ (m0 : List (String × GoVal)),
    f x ∈ mapKeys (l.foldl (fun m y => mapInsert m (f y) (g y)) m0)
  | [], hx, _ => by simp at hx
  | a :: tl, hx, m0 => by
    simp only [List.foldl_cons]
    rcases List.mem_cons.mp hx with h | h
    · subst h
      exact mem_mapKeys_foldl_of_mem_base f g tl ((mem_mapKeys_mapInsert (f x)).mpr (.inr rfl))
    · exact mem_mapKeys_foldl_insert_of_mem f g tl h _

theorem nodup_mapKeys_foldl_insert {α : Type} (f : α → String) (g : α → GoVal)
    (l : List α) {m0 : List (String × GoVal)} (h : (mapKeys m0).Nodup) :
    (mapKeys (l.foldl (fun m x => mapInsert m (f x) (g x)) m0)).Nodup := by
  induction l generalizing m0 with
  | nil => simpa using h
  | cons a tl ih =>
    simp only [List.foldl_cons]
    exact ih (nodup_mapKeys_mapInsert h)

theorem find?_key_eq_of_nodup {l : List (String × GoVal)} {k : String} {v : GoVal}
    (hn : (mapKeys l).Nodup) (hm : (k, v) ∈ l) :
    l.find? (fun kv => kv.1 == k) = some (k, v) := by
  induction l with
  | nil => simp at hm
  | cons hd tl ih =>
    obtain ⟨a, b⟩ := hd
    rw [mapKeys_cons, List.nodup_cons] at hn
    rcases List.mem_cons.mp hm with h | h
    · obtain ⟨h1, h2⟩ := Prod.ext_iff.mp h
      subst h1
      subst h2
      simp [List.find?]
    · by_cases ha : a = k
      · subst ha
        exact absurd (List.mem_map_of_mem Prod.fst h) hn.1
      · have hbn : ((a == k) : Bool) = false := beq_eq_false_iff_ne.mpr ha
        simp [List.find?, hbn, ih hn.2 h]

/-! ## Lemmas on the classifier -/

theorem splitJSON_cons_json {s : String} (tl : List GoVal)
    (h : jsonValid (trimSpace s) = true) :
    splitJSON (.str s :: tl) = (trimSpace s :: (splitJSON tl).1, (splitJSON tl).2) := by
  simp [splitJSON, h]

theorem splitJSON_cons_keep (v : GoVal) (tl : List GoVal) (h : isJSONString v = false) :
    splitJSON (v :: tl) = ((splitJSON tl).1, v :: (splitJSON tl).2) := by
  cases v <;> simp_all [splitJSON, isJSONString]

theorem splitJSON_kv_nil_of_all_json {l : List GoVal}
    (h : ∀ v ∈ l, isJSONString v = true) : (splitJSON l).2 = [] := by
  induction l with
  | nil => rfl
  | cons v tl ih =>
    have hv := h v (List.mem_cons_self v tl)
    have htl := ih fun w hw => h w (List.mem_cons_of_mem v hw)
    cases v with
    | str s =>
      rw [splitJSON_cons_json tl (by simpa [isJSONString] using hv)]
      exact htl
    | _ => simp [isJSONString] at hv

theorem not_json_of_mem_splitJSON_kv {l : List GoVal} {v : GoVal}
    (h : v ∈ (splitJSON l).2) : isJSONString v = false := by
  induction l with
  | nil => simp [splitJSON] at h
  | cons u tl ih =>
    by_cases hu : isJSONString u = true
    · obtain ⟨s, rfl, hv⟩ : ∃ s, u = GoVal.str s ∧ jsonValid (trimSpace s) = true := by
        cases u <;> simp_all [isJSONString]
      rw [splitJSON_cons_json tl hv] at h
      exact ih h
    · rw [splitJSON_cons_keep u tl (by simpa using hu)] at h
      rcases List.mem_cons.mp h with h' | h'
      · subst h'
        simpa using hu
      · exact ih h'

theorem pairKV_nil (f : List (String × GoVal)) : pairKV f [] = (f, []) := rfl

theorem pairKV_single (f : List (String × GoVal)) (x : GoVal) : pairKV f [x] = (f, [x]) := rfl

theorem pairKV_cons_str (f : List (String × GoVal)) (ks : String) (v : GoVal)
    (tl : List GoVal) :
    pairKV f (.str ks :: v :: tl) = pairKV (mapInsert f (normalizeKey ks) v) tl := rfl

theorem mem_fields_pairKV :
    ∀ (f : List (String × GoVal)) (l : List GoVal) (kv : String × GoVal),
      kv ∈ (pairKV f l).1 → kv ∈ f ∨ kv.2 ∈ l
  | _, [], _, h => .inl h
  | _, [_], _, h => .inl h
  | f, k :: v :: tl, kv, h => by
    cases k with
    | str ks =>
      rw [pairKV_cons_str] at h
      rcases mem_fields_pairKV _ tl kv h with h' | h'
      · rcases mem_of_mem_mapInsert h' with h'' | h''
        · exact .inl h''
        · right
          rw [h'']
          exact List.mem_cons_of_mem _ (List.mem_cons_self _ _)
      · exact .inr (List.mem_cons_of_mem _ (List.mem_cons_of_mem _ h'))
    | _ =>
      simp only [pairKV] at h
      rcases mem_fields_pairKV f tl kv h with h' | h'
      · exact .inl h'
      · exact .inr (List.mem_cons_of_mem _ (List.mem_cons_of_mem _ h'))

theorem nodup_mapKeys_pairKV :
    ∀ (f : List (String × GoVal)) (l : List GoVal),
      (mapKeys f).Nodup → (mapKeys (pairKV f l).1).Nodup
  | _, [], h => h
  | _, [_], h => h
  | f, k :: v :: tl, h => by
    cases k with
    | str ks =>
      rw [pairKV_cons_str]
      exact nodup_mapKeys_pairKV _ tl (nodup_mapKeys_mapInsert h)
    | _ =>
      simp only [pairKV]
      exact nodup_mapKeys_pairKV f tl h

theorem parseArgs_nil : parseArgs [] = ⟨.str "", [], [], none, []⟩ := rfl

theorem parseArgs_general {msg : GoVal} {rest : List GoVal}
    (h : isSingletonMap rest = none) :
    parseArgs (msg :: rest) = classifyGeneral msg rest := by
  simp [parseArgs, h]

theorem parseArgs_some_map {msg : GoVal} {rest : List GoVal} {m : List (String × GoVal)}
    (h : isSingletonMap rest = some m) :
    parseArgs (msg :: rest) = ⟨msg, copyMapFields m, [], none, []⟩ := by
  simp [parseArgs, h]

theorem parseArgs_cons_map (m : GoVal) (es : List (String × GoVal)) :
    parseArgs [m, .map es] = ⟨m, copyMapFields es, [], none, []⟩ := rfl

theorem parseArgs_msg (m : GoVal) (rest : List GoVal) : (parseArgs (m :: rest)).msg = m := by
  cases h : isSingletonMap rest with
  | some es => rw [parseArgs_some_map h]
  | none => rw [parseArgs_general h]; rfl

theorem classifyGeneral_fields (msg : GoVal) (rest : List GoVal) :
    (classifyGeneral msg rest).fields =
      (pairKV [] (detachTrailingError (splitJSON rest).2).2).1 := rfl

theorem classifyGeneral_errField (msg : GoVal) (rest : List GoVal) :
    (classifyGeneral msg rest).errField =
      (detachTrailingError (splitJSON rest).2).1 := rfl

theorem classifyGeneral_dataJSON (msg : GoVal) (rest : List GoVal) :
    (classifyGeneral msg rest).dataJSON = (splitJSON rest).1 := rfl

theorem classifyGeneral_extra (msg : GoVal) (rest : List GoVal) :
    (classifyGeneral msg rest).extra =
      (pairKV [] (detachTrailingError (splitJSON rest).2).2).2 := rfl

theorem detachTrailingError_kv_sublist (l : List GoVal) :
    List.Sublist (detachTrailingError l).2 l := by
  unfold detachTrailingError
  split
  · split
    · exact List.dropLast_sublist l
    · exact List.Sublist.refl l
  · exact List.Sublist.refl l

theorem fields_not_json_classifyGeneral {msg : GoVal} {rest : List GoVal}
    {k : String} {v : GoVal} (h : (k, v) ∈ (classifyGeneral msg rest).fields) :
    isJSONString v = false := by
  rw [classifyGeneral_fields] at h
  rcases mem_fields_pairKV _ _ _ h with h' | h'
  · simp at h'
  · exact not_json_of_mem_splitJSON_kv
      ((detachTrailingError_kv_sublist (splitJSON rest).2).subset h')

theorem nodup_mapKeys_copyMapFields (es : List (String × GoVal)) :
    (mapKeys (copyMapFields es)).Nodup :=
  nodup_mapKeys_foldl_insert _ _ es List.nodup_nil

theorem nodup_mapKeys_parseArgs_fields (args : List GoVal) :
    (mapKeys (parseArgs args).fields).Nodup := by
  match args with
  | [] => exact List.nodup_nil
  | msg :: rest =>
    cases h : isSingletonMap rest with
    | some es =>
      rw [parseArgs_some_map h]
      exact nodup_mapKeys_copyMapFields es
    | none =>
      rw [parseArgs_general h, classifyGeneral_fields]
      exact nodup_mapKeys_pairKV _ _ List.nodup_nil

theorem mapLookup_fieldsToExtra_of_nodup {fs : List (String × GoVal)} {k : String}
    {v : GoVal} (hn : (mapKeys fs).Nodup) (hm : (k, v) ∈ fs) :
    mapLookup (fieldsToExtra fs) k = some (parseJSONIfString v) := by
  have hfind : fs.reverse.find? (fun kv => kv.1 == k) = some (k, v) :=
    find?_key_eq_of_nodup (by simpa [mapKeys, List.map_reverse] using hn)
      (List.mem_reverse.mpr hm)
  have := mapLookup_foldl_insert (fun kv : String × GoVal => kv.1)
    (fun kv => parseJSONIfString kv.2) k fs []
  rw [fieldsToExtra, this, hfind]

/-! ## Lemmas on the string order used by the encoder's key sort -/

theorem listCharLe_total : ∀ a b : List Char, listCharLe a b = true ∨ listCharLe b a = true
  | [], _ => .inl rfl
  | _ :: _, [] => .inr rfl
  | a :: as, b :: bs => by
    simp only [listCharLe]
    rcases Nat.lt_trichotomy a.toNat b.toNat with h | h | h
    · left
      simp [h]
    · have h1 : ¬a.toNat < b.toNat := by omega
      have h2 : ¬b.toNat < a.toNat := by omega
      simp only [h, if_neg h1, if_neg h2, lt_irrefl, if_false]
      exact listCharLe_total as bs
    · right
      simp [h]

theorem listCharLe_trans :
    ∀ a b c : List Char, listCharLe a b = true → listCharLe b c = true →
      listCharLe a c = true
  | [], _, _, _, _ => rfl
  | _ :: _, [], _, h1, _ => by simp [listCharLe] at h1
  | _ :: _, _ :: _, [], _, h2 => by simp [listCharLe] at h2
  | a :: as, b :: bs, c :: cs, h1, h2 => by
    simp only [listCharLe] at h1 h2 ⊢
    rcases Nat.lt_trichotomy a.toNat b.toNat with hab | hab | hab
    · rcases Nat.lt_trichotomy b.toNat c.toNat with hbc | hbc | hbc
      · have hac : a.toNat < c.toNat := hab.trans hbc
        simp [hac]
      · have hac : a.toNat < c.toNat := hbc ▸ hab
        simp [hac]
      · rw [if_neg (by omega), if_pos hbc] at h2
        exact absurd h2 (by simp)
    · rcases Nat.lt_trichotomy b.toNat c.toNat with hbc | hbc | hbc
      · have hac : a.toNat < c.toNat := by omega
        simp [hac]
      · have h1' : listCharLe as bs = true := by
          rw [if_neg (by omega), if_neg (by omega)] at h1
          exact h1
        have h2' : listCharLe bs cs = true := by
          rw [if_neg (by omega), if_neg (by omega)] at h2
          exact h2
        rw [if_neg (by omega), if_neg (by omega)]
        exact listCharLe_trans as bs cs h1' h2'
      · rw [if_neg (by omega), if_pos hbc] at h2
        exact absurd h2 (by simp)
    · rw [if_neg (by omega), if_pos hab] at h1
      exact absurd h1 (by simp)

theorem strLe_total (a b : String) : strLe a b = true ∨ strLe b a = true :=
  listCharLe_total a.data b.data

theorem strLe_trans {a b c : String} (h1 : strLe a b = true) (h2 : strLe b c = true) :
    strLe a c = true :=
  listCharLe_trans a.data b.data c.data h1 h2

theorem sorted_sortedExtraKeys (extra : List (String × GoVal)) :
    List.Sorted (fun a b => strLe a b = true) (sortedExtraKeys extra) := by
  haveI : IsTotal String (fun a b => strLe a b = true) := ⟨strLe_total⟩
  haveI : IsTrans String (fun a b => strLe a b = true) := ⟨fun _ _ _ => strLe_trans⟩
  exact List.sorted_insertionSort _ _

theorem mem_sortedExtraKeys {extra : List (String × GoVal)} {k : String} :
    k ∈ sortedExtraKeys extra ↔ k ∈ mapKeys extra ∧ reservedKey k = false := by
  simp [sortedExtraKeys, List.mem_insertionSort, List.mem_filter, mapKeys]

/-! ## Lemmas on the ordered JSON encoder -/

theorem buildJSONEntry_ts (ts : String) (lv : Level) (caller : String) (args : List GoVal) :
    (buildJSONEntry ts lv caller args).ts = ts := rfl

theorem buildJSONEntry_lv (ts : String) (lv : Level) (caller : String) (args : List GoVal) :
    (buildJSONEntry ts lv caller args).lv = lv.name := rfl

theorem buildJSONEntry_caller (ts : String) (lv : Level) (caller : String)
    (args : List GoVal) : (buildJSONEntry ts lv caller args).caller = caller := rfl

theorem buildJSONEntry_msg (ts : String) (lv : Level) (caller : String) (args : List GoVal) :
    (buildJSONEntry ts lv caller args).msg = parseJSONIfString (parseArgs args).msg := rfl

theorem buildJSONEntry_err (ts : String) (lv : Level) (caller : String) (args : List GoVal) :
    (buildJSONEntry ts lv caller args).err = (parseArgs args).errField := rfl

theorem buildJSONEntry_extra (ts : String) (lv : Level) (caller : String)
    (args : List GoVal) :
    (buildJSONEntry ts lv caller args).extra =
      (if (parseArgs args).extra.isEmpty then
         if (parseArgs args).dataJSON = [] then fieldsToExtra (parseArgs args).fields
         else mapInsert (fieldsToExtra (parseArgs args).fields) "data"
           (dataValue (parseArgs args).dataJSON)
       else
         mapInsert
           (if (parseArgs args).dataJSON = [] then fieldsToExtra (parseArgs args).fields
            else mapInsert (fieldsToExtra (parseArgs args).fields) "data"
              (dataValue (parseArgs args).dataJSON))
           "args" (GoVal.list (parseArgs args).extra)) := rfl

theorem outputKeys_eq (e : OrderedEntry) :
    outputKeys e =
      ["ts", "lv", "caller", "msg"] ++ sortedExtraKeys e.extra ++
        (match e.err with
         | some _ => ["err"]
         | none => []) := by
  unfold outputKeys marshalOrdered
  have hmapfst :
      (Prod.fst ∘ fun k => (k, (mapLookup e.extra k).getD (GoVal.str ""))) =
        fun k : String => k := rfl
  cases e.err <;> simp [hmapfst]

theorem mapLookup_marshalOrdered {e : OrderedEntry} {k : String} {v : GoVal}
    (hres : reservedKey k = false) (hsome : mapLookup e.extra k = some v) :
    mapLookup (marshalOrdered e) k = some v := by
  have hne : ¬(k = "ts" ∨ k = "lv" ∨ k = "caller" ∨ k = "msg" ∨ k = "err") := by
    intro hh
    rw [reservedKey] at hres
    rcases hh with h | h | h | h | h <;> simp [h] at hres
  push_neg at hne
  obtain ⟨h1, h2, h3, h4, _⟩ := hne
  have hk : k ∈ sortedExtraKeys e.extra :=
    mem_sortedExtraKeys.mpr ⟨mem_mapKeys_of_lookup hsome, hres⟩
  unfold marshalOrdered
  rw [mapLookup_append, mapLookup_append]
  have e1 : ¬("ts" = k) := fun h => h1 h.symm
  have e2 : ¬("lv" = k) := fun h => h2 h.symm
  have e3 : ¬("caller" = k) := fun h => h3 h.symm
  have e4 : ¬("msg" = k) := fun h => h4 h.symm
  have hfixed :
      mapLookup [("ts", GoVal.str e.ts), ("lv", GoVal.str e.lv),
        ("caller", GoVal.str e.caller), ("msg", e.msg)] k = none := by
    simp [mapLookup, e1, e2, e3, e4]
  rw [hfixed]
  rw [mapLookup_keyedMap (fun k0 => (mapLookup e.extra k0).getD (GoVal.str "")) k
    (sortedExtraKeys e.extra)]
  simp [hk, hsome]

theorem detachTrailingError_eq (l : List GoVal) :
    detachTrailingError l =
      if 0 < l.length ∧ l.length % 2 = 1 ∧ (lastErr l).isSome = true
      then (lastErr l, l.dropLast) else (none, l) := by
  unfold detachTrailingError lastErr
  cases hl : l.getLast? with
  | none =>
    have hnil : l = [] := List.getLast?_eq_none_iff.mp hl
    simp [hnil]
  | some v =>
    have hne : 0 < l.length := by
      cases l with
      | nil => simp at hl
      | cons a tl => simp
    cases v with
    | errv e =>
      by_cases hodd : l.length % 2 = 1
      · simp [hodd, hne]
      · simp [hodd]
    | _ => simp [hne]

/-! ## The claims -/

/-- C2: trailing-error detection runs on the list remaining after every
valid-JSON string element has been removed: if that post-removal list is
non-empty, has odd length and ends in an error value, that value is
detached as the trailing error; in particular an error followed only by
valid-JSON string arguments is still detected. -/
theorem trailing_error_after_json (msg : GoVal) (rest : List GoVal)
    (h : isSingletonMap rest = none) :
    ((parseArgs (msg :: rest)).errField =
      if 0 < (splitJSON rest).2.length ∧ (splitJSON rest).2.length % 2 = 1 ∧
          (lastErr (splitJSON rest).2).isSome = true
      then lastErr (splitJSON rest).2 else none) ∧
    ((parseArgs (msg :: rest)).fields =
      (pairKV []
        (if 0 < (splitJSON rest).2.length ∧ (splitJSON rest).2.length % 2 = 1 ∧
            (lastErr (splitJSON rest).2).isSome = true
         then (splitJSON rest).2.dropLast else (splitJSON rest).2)).1) ∧
    (∀ (e : String) (strs : List GoVal), (∀ v ∈ strs, isJSONString v = true) →
      (parseArgs (msg :: GoVal.errv e :: strs)).errField = some e) := by
  refine ⟨?_, ?_, ?_⟩
  · rw [parseArgs_general h, classifyGeneral_errField, detachTrailingError_eq]
    by_cases hc : 0 < (splitJSON rest).2.length ∧ (splitJSON rest).2.length % 2 = 1 ∧
        (lastErr (splitJSON rest).2).isSome = true
    · simp [hc]
    · simp [hc]
  · rw [parseArgs_general h, classifyGeneral_fields, detachTrailingError_eq]
    by_cases hc : 0 < (splitJSON rest).2.length ∧ (splitJSON rest).2.length % 2 = 1 ∧
        (lastErr (splitJSON rest).2).isSome = true
    · simp [hc]
    · simp [hc]
  · intro e strs hstrs
    have hsm : isSingletonMap (GoVal.errv e :: strs) = none := by
      cases strs <;> rfl
    rw [parseArgs_general hsm, classifyGeneral_errField]
    have hkv : (splitJSON (GoVal.errv e :: strs)).2 = [GoVal.errv e] := by
      rw [splitJSON_cons_keep (GoVal.errv e) strs rfl]
      simp [splitJSON_kv_nil_of_all_json hstrs]
    rw [hkv]
    rfl

theorem trailing_error_after_json_witness :
    (parseArgs [GoVal.str "m", GoVal.errv "boom", GoVal.str "[1]"]).errField =
      some "boom" :=
  (trailing_error_after_json (GoVal.str "m") [GoVal.errv "boom", GoVal.str "[1]"]
    rfl).2.2 "boom" [GoVal.str "[1]"]
    (fun v hv => by rw [List.mem_singleton.mp hv]; rfl)

/-- C3: after every sink rebuild the active writer list is never empty:
when no usable writer results, stderr alone is substituted; and for
Scenario D (`SetOutput "file"` with an empty stored file path) the setter
returns an error and the active writers fall back to stderr alone. -/
theorem writer_fallback (out : DestSet) (file : String) (openOK : Bool)
    (st : LoggerState) (hfile : st.cfg.file = "") :
    rebuildWriters out file openOK ≠ [] ∧
    (usableWriters out file openOK = [] →
      rebuildWriters out file openOK = [Writer.stderr]) ∧
    (stateSetOutput st "file" openOK).2 = some GoErr.outputFileEmpty ∧
    (stateSetOutput st "file" openOK).1.writers = [Writer.stderr] := by
  have hpo : parseOutput "file" "" = (⟨false, false, true⟩, some GoErr.outputFileEmpty) := by
    decide
  have h0 : trimSpace "" = "" := rfl
  refine ⟨?_, ?_, ?_, ?_⟩
  · unfold rebuildWriters
    by_cases hw : usableWriters out file openOK = [] <;> simp [hw]
  · intro hw
    unfold rebuildWriters
    simp [hw]
  · simp [stateSetOutput, hfile, hpo]
  · simp only [stateSetOutput, hfile, hpo]
    have husable : usableWriters ⟨false, false, true⟩ "" openOK = [] := by
      simp [usableWriters, h0]
    simp [rebuildWriters, husable]

theorem writer_fallback_witness :
    usableWriters ⟨false, false, true⟩ "" true = [] ∧
    rebuildWriters ⟨false, false, true⟩ "" true = [Writer.stderr] :=
  ⟨by decide,
   (writer_fallback ⟨false, false, true⟩ "" true
      ⟨⟨.INFO, .JSON, ⟨false, true, false⟩, ""⟩, [.stderr]⟩ rfl).2.1 (by decide)⟩

/-- C4: an empty (or all-whitespace) destination spec is special: with a
non-empty current file path the result is exactly the `file`-only set and
no error; with an empty file path it is exactly the `stderr`-only set and
no error. -/
theorem destination_spec_empty (spec file : String) (h : trimSpace spec = "") :
    parseOutput spec file =
      if trimSpace file = "" then (⟨false, true, false⟩, none)
      else (⟨false, false, true⟩, none) := by
  unfold parseOutput
  rw [h]
  by_cases hf : trimSpace file = "" <;> simp [hf]

theorem destination_spec_empty_witness :
    parseOutput "  " "/tmp/app.log" = (⟨false, false, true⟩, none) := by
  rw [destination_spec_empty "  " "/tmp/app.log" rfl, if_neg (by decide)]

/-- C5: if exactly one element follows the message and it is a string-keyed
map, every entry is copied into `fields` with its key normalized, and the
raw-data list, trailing error and leftovers are all empty. -/
theorem single_map_shortcut (m : GoVal) (es : List (String × GoVal)) :
    parseArgs [m, .map es] = ⟨m, copyMapFields es, [], none, []⟩ ∧
    ∀ kv ∈ es, (mapLookup (copyMapFields es) (normalizeKey kv.1)).isSome = true := by
  refine ⟨parseArgs_cons_map m es, ?_⟩
  intro kv hkv
  have hex : ∃ x ∈ es.reverse, (normalizeKey x.1 == normalizeKey kv.1) = true :=
    ⟨kv, List.mem_reverse.mpr hkv, by simp⟩
  have hf := List.find?_isSome.mpr hex
  rw [copyMapFields,
    mapLookup_foldl_insert (fun kv => normalizeKey kv.1) (fun kv => kv.2) _ es []]
  cases hfind : es.reverse.find? (fun x => normalizeKey x.1 == normalizeKey kv.1) with
  | some x => rfl
  | none =>
    rw [hfind] at hf
    simp at hf

theorem single_map_shortcut_witness :
    (mapLookup (copyMapFields [("k", GoVal.int 1)]) (normalizeKey "k")).isSome = true :=
  (single_map_shortcut (GoVal.str "m") [("k", GoVal.int 1)]).2 ("k", GoVal.int 1)
    (List.mem_singleton.mpr rfl)

/-- C6 counterexample: the source strips the ASCII colon first and the
full-width colon afterwards, so the key `"a：:"` loses BOTH trailing
colons, while the claim's one-colon normalization would leave `"a："`. -/
theorem normalize_key_counterexample :
    normalizeKey "a：:" = "a" ∧ normalizeKeySpec "a：:" = "a：" ∧
      ("a" : String) ≠ "a：" :=
  ⟨rfl, rfl, by decide⟩

/-- C6 (amended): a string key consumed by pairing is stored under
`normalizeKey`, which trims whitespace, then strips one trailing ASCII
colon if present, and afterwards strips one trailing full-width colon if
present — so a key ending in `：:` loses both colons; in every other case
at most one trailing colon is removed. -/
theorem normalize_key_two_stage (k : String) :
    (normalizeKey k =
      if lastChar (trimSpace k) = some ':' then
        (if lastChar (dropLastStr (trimSpace k)) = some '：' then
          dropLastStr (dropLastStr (trimSpace k))
        else dropLastStr (trimSpace k))
      else if lastChar (trimSpace k) = some '：' then dropLastStr (trimSpace k)
      else trimSpace k) ∧
    ∀ (f : List (String × GoVal)) (ks : String) (v : GoVal) (tl : List GoVal),
      pairKV f (GoVal.str ks :: v :: tl) = pairKV (mapInsert f (normalizeKey ks) v) tl := by
  refine ⟨?_, fun f ks v tl => pairKV_cons_str f ks v tl⟩
  simp only [normalizeKey, trimOneSuffixChar, lastChar, dropLastStr]
  by_cases h1 : (trimSpace k).data.getLast? = some ':'
  · by_cases h2 : (trimSpace k).data.dropLast.getLast? = some '：'
    · simp [h1, h2]
    · simp [h1, h2]
  · by_cases h2 : (trimSpace k).data.getLast? = some '：'
    · simp [h1, h2]
    · simp [h1, h2]

/-- C7: a leveled call emits a line exactly when its rank reaches the
configured threshold's rank; a filtered call renders nothing at all. With
threshold INFO, DEBUG is suppressed and INFO/WARN/ERROR emit. -/
theorem level_gate (cfgLevel : Level) (cfgFmt : Format) (ts caller : String)
    (lv : Level) (args : List GoVal) :
    ((logWithCaller cfgLevel cfgFmt ts caller lv args).isSome ↔
      cfgLevel.rank ≤ lv.rank) ∧
    logWithCaller Level.INFO cfgFmt ts caller Level.DEBUG args = none ∧
    (logWithCaller Level.INFO cfgFmt ts caller Level.INFO args).isSome = true ∧
    (logWithCaller Level.INFO cfgFmt ts caller Level.WARN args).isSome = true ∧
    (logWithCaller Level.INFO cfgFmt ts caller Level.ERROR args).isSome = true := by
  refine ⟨?_, rfl, rfl, rfl, rfl⟩
  unfold logWithCaller enabled
  by_cases h : cfgLevel.rank ≤ lv.rank <;> simp [h]

/-- C8 counterexample: the empty input matches none of the five level
names yet the setter accepts it without error and sets the level to INFO
(changing a DEBUG configuration). -/
theorem set_level_empty_counterexample :
    levelNameMatchSpec "" = false ∧
    (stateSetLogLevel ⟨⟨.DEBUG, .JSON, ⟨false, true, false⟩, ""⟩, [.stderr]⟩ "").2 =
      none ∧
    (stateSetLogLevel ⟨⟨.DEBUG, .JSON, ⟨false, true, false⟩, ""⟩, [.stderr]⟩
        "").1.cfg.level = Level.INFO :=
  ⟨rfl, rfl, rfl⟩

/-- C8 (amended): for every input whose trimmed upper-cased form is none of
DEBUG, INFO, WARN, WARNING, ERROR and not the empty string, the level
setter leaves the whole state (configuration and active writers) unchanged
and returns the error carrying the invalid input. -/
theorem set_level_invalid (st : LoggerState) (s : String)
    (h : ¬toUpperGo (trimSpace s) ∈
      (["DEBUG", "INFO", "WARN", "WARNING", "ERROR", ""] : List String)) :
    stateSetLogLevel st s = (st, some (GoErr.unknownLevel s)) := by
  simp only [List.mem_cons, List.mem_singleton, not_or] at h
  obtain ⟨h1, h2, h3, h4, h5, h6⟩ := h
  simp [stateSetLogLevel, parseLevel, h1, h2, h3, h4, h5, h6]

theorem set_level_invalid_witness :
    stateSetLogLevel ⟨⟨.INFO, .JSON, ⟨false, true, false⟩, ""⟩, [.stderr]⟩ "bogus" =
      (⟨⟨.INFO, .JSON, ⟨false, true, false⟩, ""⟩, [.stderr]⟩,
        some (GoErr.unknownLevel "bogus")) :=
  set_level_invalid _ "bogus" (by decide)

theorem mem_mapKeys_entry_extra (ts : String) (lv : Level) (caller : String)
    (args : List GoVal) {k : String}
    (h : k ∈ mapKeys (fieldsToExtra (parseArgs args).fields) ∨
         (k = "data" ∧ (parseArgs args).dataJSON ≠ []) ∨
         (k = "args" ∧ (parseArgs args).extra ≠ [])) :
    k ∈ mapKeys (buildJSONEntry ts lv caller args).extra := by
  rw [buildJSONEntry_extra]
  cases hext : (parseArgs args).extra with
  | nil =>
    rw [if_pos (by simp)]
    by_cases hd : (parseArgs args).dataJSON = []
    · rw [if_pos hd]
      rcases h with h | ⟨_, hd'⟩ | ⟨_, he'⟩
      · exact h
      · exact absurd hd hd'
      · exact absurd hext he'
    · rw [if_neg hd]
      rcases h with h | ⟨hk, _⟩ | ⟨_, he'⟩
      · exact (mem_mapKeys_mapInsert k).mpr (.inl h)
      · subst hk
        exact (mem_mapKeys_mapInsert _).mpr (.inr rfl)
      · exact absurd hext he'
  | cons a tl =>
    rw [if_neg (by simp)]
    rcases h with h | ⟨hk, hd'⟩ | ⟨hk, _⟩
    · refine (mem_mapKeys_mapInsert k).mpr (.inl ?_)
      by_cases hd : (parseArgs args).dataJSON = []
      · rw [if_pos hd]
        exact h
      · rw [if_neg hd]
        exact (mem_mapKeys_mapInsert k).mpr (.inl h)
    · refine (mem_mapKeys_mapInsert k).mpr (.inl ?_)
      rw [if_neg hd']
      subst hk
      exact (mem_mapKeys_mapInsert _).mpr (.inr rfl)
    · subst hk
      exact (mem_mapKeys_mapInsert _).mpr (.inr rfl)

theorem mem_mapKeys_fieldsToExtra_of_mem {fs : List (String × GoVal)}
    {k : String} {v : GoVal} (h : (k, v) ∈ fs) :
    k ∈ mapKeys (fieldsToExtra fs) :=
  mem_mapKeys_foldl_insert_of_mem (fun kv : String × GoVal => kv.1)
    (fun kv => parseJSONIfString kv.2) fs h []

/-- C1 counterexample: with one raw-data blob and one leftover, the
synthetic keys are sorted among the extras, so `args` precedes `data` in
the output — not `data` then `args` as the claim orders them. -/
theorem json_key_order_counterexample :
    outputKeys (buildJSONEntry "2024-01-01 00:00:00" Level.INFO "main.go:10"
        [GoVal.str "m", GoVal.str "[1]", GoVal.int 5]) =
      ["ts", "lv", "caller", "msg", "args", "data"] ∧
    (["ts", "lv", "caller", "msg", "args", "data"] : List String) ≠
      ["ts", "lv", "caller", "msg", "data", "args"] :=
  ⟨by decide, by decide⟩

/-- C1 (amended): every JSON object starts with the keys ts, lv, caller,
msg in that order, followed by ALL extra entries — the user fields
together with the synthetic `data` and `args` keys when present — in
ascending lexicographic order with the reserved names filtered out, and
ends with `err` exactly when a trailing error was detected. -/
theorem json_key_order (ts : String) (lv : Level) (caller : String) (args : List GoVal) :
    (outputKeys (buildJSONEntry ts lv caller args) =
      ["ts", "lv", "caller", "msg"] ++
        sortedExtraKeys (buildJSONEntry ts lv caller args).extra ++
        (if (parseArgs args).errField.isSome then ["err"] else [])) ∧
    List.Sorted (fun a b => strLe a b = true)
      (sortedExtraKeys (buildJSONEntry ts lv caller args).extra) ∧
    (∀ k ∈ sortedExtraKeys (buildJSONEntry ts lv caller args).extra,
      reservedKey k = false) ∧
    ((parseArgs args).dataJSON ≠ [] →
      "data" ∈ sortedExtraKeys (buildJSONEntry ts lv caller args).extra) ∧
    ((parseArgs args).extra ≠ [] →
      "args" ∈ sortedExtraKeys (buildJSONEntry ts lv caller args).extra) ∧
    (∀ (k : String) (v : GoVal), (k, v) ∈ (parseArgs args).fields →
      reservedKey k = false →
      k ∈ sortedExtraKeys (buildJSONEntry ts lv caller args).extra) := by
  refine ⟨?_, sorted_sortedExtraKeys _, fun k hk => (mem_sortedExtraKeys.mp hk).2,
    ?_, ?_, ?_⟩
  · rw [outputKeys_eq, buildJSONEntry_err]
    cases herr : (parseArgs args).errField <;> simp
  · intro hd
    exact mem_sortedExtraKeys.mpr
      ⟨mem_mapKeys_entry_extra ts lv caller args (.inr (.inl ⟨rfl, hd⟩)), rfl⟩
  · intro he
    exact mem_sortedExtraKeys.mpr
      ⟨mem_mapKeys_entry_extra ts lv caller args (.inr (.inr ⟨rfl, he⟩)), rfl⟩
  · intro k v hkv hres
    exact mem_sortedExtraKeys.mpr
      ⟨mem_mapKeys_entry_extra ts lv caller args
        (.inl (mem_mapKeys_fieldsToExtra_of_mem hkv)), hres⟩

theorem json_key_order_witness :
    "data" ∈ sortedExtraKeys (buildJSONEntry "T" Level.INFO "c"
      [GoVal.str "m", GoVal.str "[1]", GoVal.int 5]).extra :=
  (json_key_order "T" Level.INFO "c"
    [GoVal.str "m", GoVal.str "[1]", GoVal.int 5]).2.2.2.1 (by decide)

/-- C10: a user field whose normalized key is one of the reserved names
ts/lv/caller/msg/err never reaches the emitted object's extra section (the
fixed positions keep their fixed values), and the synthetic `data`/`args`
entries overwrite any user field of the same name whenever blobs or
leftovers exist in the record. -/
theorem reserved_key_shadowing (ts : String) (lv : Level) (caller : String)
    (args : List GoVal) :
    (∀ k, reservedKey k = true →
      k ∉ sortedExtraKeys (buildJSONEntry ts lv caller args).extra) ∧
    mapLookup (marshalOrdered (buildJSONEntry ts lv caller args)) "ts" =
      some (GoVal.str ts) ∧
    mapLookup (marshalOrdered (buildJSONEntry ts lv caller args)) "lv" =
      some (GoVal.str lv.name) ∧
    mapLookup (marshalOrdered (buildJSONEntry ts lv caller args)) "caller" =
      some (GoVal.str caller) ∧
    mapLookup (marshalOrdered (buildJSONEntry ts lv caller args)) "msg" =
      some (parseJSONIfString (parseArgs args).msg) ∧
    ((parseArgs args).dataJSON ≠ [] →
      mapLookup (marshalOrdered (buildJSONEntry ts lv caller args)) "data" =
        some (dataValue (parseArgs args).dataJSON)) ∧
    ((parseArgs args).extra ≠ [] →
      mapLookup (marshalOrdered (buildJSONEntry ts lv caller args)) "args" =
        some (GoVal.list (parseArgs args).extra)) := by
  refine ⟨?_, rfl, rfl, rfl, rfl, ?_, ?_⟩
  · intro k hk hmem
    have := (mem_sortedExtraKeys.mp hmem).2
    rw [hk] at this
    cases this
  · intro hd
    have hsome : mapLookup (buildJSONEntry ts lv caller args).extra "data" =
        some (dataValue (parseArgs args).dataJSON) := by
      rw [buildJSONEntry_extra]
      cases hext : (parseArgs args).extra with
      | nil =>
        rw [if_pos (by simp), if_neg hd]
        exact mapLookup_mapInsert_self _ _ _
      | cons a tl =>
        rw [if_neg (by simp), mapLookup_mapInsert_ne _ _ (by decide), if_neg hd]
        exact mapLookup_mapInsert_self _ _ _
    exact mapLookup_marshalOrdered rfl hsome
  · intro he
    have hsome : mapLookup (buildJSONEntry ts lv caller args).extra "args" =
        some (GoVal.list (parseArgs args).extra) := by
      rw [buildJSONEntry_extra]
      cases hext : (parseArgs args).extra with
      | nil => exact absurd hext he
      | cons a tl =>
        rw [if_neg (by simp), ← hext]
        exact mapLookup_mapInsert_self _ _ _
    exact mapLookup_marshalOrdered rfl hsome

theorem reserved_key_shadowing_witness :
    mapLookup (marshalOrdered (buildJSONEntry "T" Level.INFO "c"
        [GoVal.str "m", GoVal.str "[1]", GoVal.str "ts", GoVal.int 1, GoVal.int 7]))
      "data" =
      some (dataValue (parseArgs
        [GoVal.str "m", GoVal.str "[1]", GoVal.str "ts", GoVal.int 1,
          GoVal.int 7]).dataJSON) :=
  (reserved_key_shadowing "T" Level.INFO "c"
    [GoVal.str "m", GoVal.str "[1]", GoVal.str "ts", GoVal.int 1,
      GoVal.int 7]).2.2.2.2.2.1 (by decide)

/-- C9 counterexample: a user field named `msg` whose value is valid-JSON
text is dropped from the JSON output entirely (the reserved-key filter),
so the renderer does not embed it anywhere: the emitted object consists of
the four fixed keys only and its `msg` position holds the call's message. -/
theorem json_roundtrip_counterexample :
    jsonValid (trimSpace "[1]") = true ∧
    ("msg", GoVal.str "[1]") ∈
      (parseArgs [GoVal.str "m", GoVal.map [("msg", GoVal.str "[1]")]]).fields ∧
    outputKeys (buildJSONEntry "T" Level.INFO "c"
      [GoVal.str "m", GoVal.map [("msg", GoVal.str "[1]")]]) =
      ["ts", "lv", "caller", "msg"] ∧
    (buildJSONEntry "T" Level.INFO "c"
      [GoVal.str "m", GoVal.map [("msg", GoVal.str "[1]")]]).msg = GoVal.str "m" :=
  ⟨rfl, List.mem_singleton.mpr rfl, by decide, rfl⟩

/-- C9 (amended): a message that is valid-JSON text is embedded as the
parsed structured value, and a field value that is valid-JSON text is
embedded at its key as the parsed structured value — equal to parsing the
original trimmed text — provided the field's key is not one of the
reserved names ts/lv/caller/msg/err (reserved-named fields are omitted
from JSON output). -/
theorem json_roundtrip (ts : String) (lv : Level) (caller : String) :
    (∀ (s : String) (j : Jval) (rest : List GoVal),
      jsonParse (trimSpace s) = some j →
      (buildJSONEntry ts lv caller (GoVal.str s :: rest)).msg = GoVal.json j) ∧
    (∀ (args : List GoVal) (k : String) (s : String) (j : Jval),
      (k, GoVal.str s) ∈ (parseArgs args).fields →
      jsonParse (trimSpace s) = some j →
      reservedKey k = false →
      mapLookup (marshalOrdered (buildJSONEntry ts lv caller args)) k =
        some (GoVal.json j)) := by
  constructor
  · intro s j rest hj
    rw [buildJSONEntry_msg, parseArgs_msg]
    have hv : jsonValid (trimSpace s) = true := by
      rw [jsonValid, hj]
      rfl
    simp [parseJSONIfString, hv, mustUnmarshalAny, hj]
  · intro args k s j hmem hj hres
    have hv : jsonValid (trimSpace s) = true := by
      rw [jsonValid, hj]
      rfl
    cases args with
    | nil =>
      rw [parseArgs_nil] at hmem
      simp at hmem
    | cons msg rest =>
      cases hsm : isSingletonMap rest with
      | none =>
        rw [parseArgs_general hsm] at hmem
        have hnj := fields_not_json_classifyGeneral hmem
        rw [isJSONString] at hnj
        rw [hv] at hnj
        cases hnj
      | some mfields =>
        have hrec : parseArgs (msg :: rest) =
            ⟨msg, copyMapFields mfields, [], none, []⟩ := parseArgs_some_map hsm
        rw [hrec] at hmem
        have hextra : (buildJSONEntry ts lv caller (msg :: rest)).extra =
            fieldsToExtra (copyMapFields mfields) := by
          rw [buildJSONEntry_extra, hrec]
          simp
        have hlook : mapLookup (buildJSONEntry ts lv caller (msg :: rest)).extra k =
            some (parseJSONIfString (GoVal.str s)) := by
          rw [hextra]
          exact mapLookup_fieldsToExtra_of_nodup (nodup_mapKeys_copyMapFields mfields) hmem
        have hval : parseJSONIfString (GoVal.str s) = GoVal.json j := by
          simp [parseJSONIfString, hv, mustUnmarshalAny, hj]
        rw [hval] at hlook
        exact mapLookup_marshalOrdered hres hlook

theorem json_roundtrip_witness :
    mapLookup (marshalOrdered (buildJSONEntry "T" Level.INFO "c"
        [GoVal.str "m", GoVal.map [("k", GoVal.str "[1]")]])) "k" =
      some (GoVal.json (Jval.arr [Jval.num 1 0])) :=
  (json_roundtrip "T" Level.INFO "c").2
    [GoVal.str "m", GoVal.map [("k", GoVal.str "[1]")]] "k" "[1]"
    (Jval.arr [Jval.num 1 0]) (List.mem_singleton.mpr rfl) rfl rfl

end Logging
